import Mathlib

/-!
Verification of the orchestration-play engine of maestro-ng
(src/maestro/plays/__init__.py).

Part 1 embeds the pure dependency computation of
BaseOrchestrationPlay: `_gather_dependencies`, the `_dependencies` dict
built in `__init__`, and `_satisfied`.

Part 2 embeds the concurrent scheduler (`register`'s worker body `act`
and `end`) as a labeled transition system over a shared state holding
the `done` set, the `error` slot, one program counter per worker thread,
and the controlling thread's position in `end`'s join loop.

Part 3 embeds the sequential `FullStatus.run` loop.

Container and service identity is the name (the spec states names are
unique within a play); Python object references become name-keyed
lookups in a total map, mirroring attribute access that cannot fail.
-/

set_option autoImplicit false

namespace Maestro

/-- A service: its `requires` and `needed_for` relations name other
services, and `containers` names its member containers
(`s.containers` in the Python code). -/
structure Service where
  requires : List String
  needed_for : List String
  containers : List String

/-- A container: belongs to exactly one service (`container.service`
in the Python code, here the service's name). -/
structure Container where
  name : String
  service : String
deriving DecidableEq

/-- The service object graph: every service name resolves to a service
record. A total function models Python object references, whose
attribute access never fails. -/
structure World where
  service : String → Service

/-- The reduce over `[s.containers for s in deps]` in
`_gather_dependencies`:
`functools.reduce(lambda x, y: x.union(y), [s.containers for s in deps], set([]))`,
flattening a list of services to the set of their member containers. -/
def serviceContainerUnion (w : World) (snames : List String) : Finset String :=
  snames.foldl (fun acc sn => acc ∪ (w.service sn).containers.toFinset) ∅

/-- The body of the (single) loop iteration of `_gather_dependencies`:
`container.service.requires if self._forward else container.service.needed_for`,
flattened to member containers. -/
def serviceDeps (w : World) (forward : Bool) (c : Container) : Finset String :=
  serviceContainerUnion w
    (if forward then (w.service c.service).requires
     else (w.service c.service).needed_for)

/-- `BaseOrchestrationPlay._gather_dependencies(container)`.

The Python body is
```
containers = set(self._containers)
result = set([container])
for container in result:
    deps = container.service.requires if self._forward \
        else container.service.needed_for
    deps = functools.reduce(lambda x, y: x.union(y),
                            [s.containers for s in deps], set([]))
    result = result.union(deps.intersection(containers))
result.remove(container)
return result
```
The `for container in result` loop iterates over the set object bound
at loop entry, which is the one-element set `set([container])`; the
assignment `result = result.union(...)` inside the body rebinds the
name `result` to a fresh set without mutating the iterated object, so
the body runs exactly once, with the loop variable equal to the
initial container. The final `result.remove(container)` therefore
removes the initial container, which is always present, so the
`KeyError` branch of `remove` is unreachable. -/
def gather_dependencies (w : World) (forward : Bool)
    (play : List Container) (c : Container) : Finset String :=
  let containers : Finset String := (play.map Container.name).toFinset
  let result : Finset String := {c.name}
  let deps := serviceDeps w forward c
  let result := result ∪ (deps ∩ containers)
  result.erase c.name

/-- One entry of the `_dependencies` dict comprehension in
`BaseOrchestrationPlay.__init__`:
`respect_dependencies and self._gather_dependencies(c) or set()`.
When `respect_dependencies` is false the conjunction short-circuits to
`False` and the `or` yields `set()`; when it is true the expression is
`gather(c)` unless that set is empty, in which case the `or` again
yields `set()`, equal to `gather(c)` anyway. -/
def dependenciesOf (w : World) (forward : Bool) (respect : Bool)
    (play : List Container) (c : Container) : Finset String :=
  if respect then gather_dependencies w forward play c else ∅

/-- The `_dependencies` dict built in `BaseOrchestrationPlay.__init__`:
one entry per play container, keyed by container name. -/
def dependenciesDict (w : World) (forward : Bool) (respect : Bool)
    (play : List Container) : List (String × Finset String) :=
  play.map (fun c => (c.name, dependenciesOf w forward respect play c))

/-- Python dict lookup over the association list: a later binding of
the same key overwrites an earlier one, and a missing key gives
`none` (a `KeyError` in Python). -/
def dictFind (d : List (String × Finset String)) (k : String) :
    Option (Finset String) :=
  d.foldl (fun acc kv => if kv.1 = k then some kv.2 else acc) none

/-- `BaseOrchestrationPlay._satisfied(container)`:
```
missing = self._dependencies[container.name].difference(self._done)
return len(missing) == 0
```
The subscript raises `KeyError` when `container.name` has no entry,
modelled as `none`; otherwise the result is whether the difference
with `done` is empty. -/
def satisfiedQ (d : List (String × Finset String)) (done : Finset String)
    (c : Container) : Option Bool :=
  (dictFind d c.name).map (fun deps => (deps \ done).card == 0)

/-- Modelled from the spec and the docstring of `_gather_dependencies`
("Transitively gather all containers from the dependencies ...
limited to the containers involved in the orchestration play"):
`ReachesDep w forward play c x` holds when container name `x` is
reachable from container `c` by following the owning service's
`requires` (forward) or `needed_for` (backward) relation through
member containers, repeatedly, staying inside the play. This is the
transitive closure the claim and the docstring describe, to be
compared against what `gather_dependencies` computes. -/
inductive ReachesDep (w : World) (forward : Bool) (play : List Container) :
    Container → String → Prop where
  | direct (c : Container) (x : String) :
      x ∈ serviceDeps w forward c →
      x ∈ play.map Container.name →
      ReachesDep w forward play c x
  | chain (c m : Container) (x : String) :
      m ∈ play →
      ReachesDep w forward play c m.name →
      ReachesDep w forward play m x →
      ReachesDep w forward play c x

/-! ### Association-list lemmas for the `_dependencies` dict -/

/-- Folding the dict-lookup step over bindings none of which match the
key leaves the accumulator unchanged. -/
theorem dictFind_step_no_match (d : List (String × Finset String))
    (acc : Option (Finset String)) (k : String)
    (h : ∀ kv ∈ d, kv.1 ≠ k) :
    d.foldl (fun acc kv => if kv.1 = k then some kv.2 else acc) acc = acc := by
  induction d generalizing acc with
  | nil => rfl
  | cons kv d ih =>
    have hkv : kv.1 ≠ k := h kv (List.mem_cons_self kv d)
    simp only [List.foldl_cons, if_neg hkv]
    exact ih acc (fun kv hm => h kv (List.mem_cons_of_mem _ hm))

/-- Folding the dict-lookup step yields `some` value as soon as some
binding matches the key or the accumulator already holds one. -/
theorem dictFind_step_isSome (d : List (String × Finset String))
    (acc : Option (Finset String)) (k : String)
    (h : (∃ kv ∈ d, kv.1 = k) ∨ acc.isSome = true) :
    (d.foldl (fun acc kv => if kv.1 = k then some kv.2 else acc) acc).isSome
      = true := by
  induction d generalizing acc with
  | nil =>
    rcases h with ⟨kv, hm, _⟩ | h
    · exact absurd hm (List.not_mem_nil kv)
    · exact h
  | cons kv d ih =>
    simp only [List.foldl_cons]
    by_cases hk : kv.1 = k
    · exact ih _ (Or.inr (by simp [hk]))
    · refine ih _ ?_
      rcases h with ⟨kv2, hm, hkey⟩ | h
      · rcases List.mem_cons.1 hm with heq | hm2
        · exact absurd (heq ▸ hkey) hk
        · exact Or.inl ⟨kv2, hm2, hkey⟩
      · simp only [if_neg hk]
        exact Or.inr h

/-- When every binding carries the same value, the dict lookup returns
that value whenever the key occurs (or the accumulator already holds
the value). -/
theorem dictFind_step_const (d : List (String × Finset String))
    (acc : Option (Finset String)) (k : String) (v : Finset String)
    (hall : ∀ kv ∈ d, kv.2 = v)
    (h : (∃ kv ∈ d, kv.1 = k) ∨ acc = some v) :
    d.foldl (fun acc kv => if kv.1 = k then some kv.2 else acc) acc
      = some v := by
  induction d generalizing acc with
  | nil =>
    rcases h with ⟨kv, hm, _⟩ | h
    · exact absurd hm (List.not_mem_nil kv)
    · exact h
  | cons kv d ih =>
    simp only [List.foldl_cons]
    by_cases hk : kv.1 = k
    · refine ih _ (fun kv2 hm => hall kv2 (List.mem_cons_of_mem _ hm))
        (Or.inr ?_)
      rw [if_pos hk, hall kv (List.mem_cons_self kv d)]
    · refine ih _ (fun kv2 hm => hall kv2 (List.mem_cons_of_mem _ hm)) ?_
      rcases h with ⟨kv2, hm, hkey⟩ | h
      · rcases List.mem_cons.1 hm with heq | hm2
        · exact absurd (heq ▸ hkey) hk
        · exact Or.inl ⟨kv2, hm2, hkey⟩
      · simp only [if_neg hk]
        exact Or.inr h

/-! ### Concrete play for the dependency-chain divergence:
three containers A, B, C on services SA, SB, SC with
SB requires SA and SC requires SB (the scenario of spec section 8). -/

/-- Service graph of the chain scenario. -/
def chainWorld : World :=
  { service := fun n =>
      if n = "SA" then
        { requires := [], needed_for := ["SB"], containers := ["A"] }
      else if n = "SB" then
        { requires := ["SA"], needed_for := ["SC"], containers := ["B"] }
      else if n = "SC" then
        { requires := ["SB"], needed_for := [], containers := ["C"] }
      else { requires := [], needed_for := [], containers := [] } }

/-- Container A of the chain scenario. -/
def cA : Container := { name := "A", service := "SA" }

/-- Container B of the chain scenario. -/
def cB : Container := { name := "B", service := "SB" }

/-- Container C of the chain scenario. -/
def cC : Container := { name := "C", service := "SC" }

/-- The chain play: all three containers take part. -/
def chainPlay : List Container := [cA, cB, cC]

/-! ### Part 2: the concurrent scheduler as a labeled transition system

One worker thread per registered task runs the body `act` of
`BaseOrchestrationPlay.register`; the controlling thread runs
`BaseOrchestrationPlay.end`. Shared state is the `done` set and the
`error` slot. Each transition is one Python statement (or statement
group executed without an interleaving point in between); transitions
of distinct threads interleave arbitrarily. -/

/-- Program counter of one worker thread through the body `act`:
after announcing `waiting...` the worker sits in the wait loop
(`waiting`); once the loop exits and the condition variable is
released it is about to read `self._error` (`checkErr`); it is
then either executing `task.run()` (`running`) or has taken the
abort branch and returned (`aborted`); after `run` it is in the
`finally` block about to notify, with the success or failure already
recorded (`notifyS` / `notifyF`); after notifying it has returned
(`finished` / `failed`). -/
inductive WPC where
  | waiting
  | checkErr
  | running
  | notifyS
  | notifyF
  | finished
  | failed
  | aborted
deriving DecidableEq

/-- Position of the controlling thread inside `end()`: still in the
join loop with the given worker names left to process (`joining`),
past the loop and about to tear down output and report (`tearing`),
or returned (`ended`). -/
inductive CPC where
  | joining (rem : List String)
  | tearing
  | ended
deriving DecidableEq

/-- The shared play state: the `done` set and `error` slot of
`BaseOrchestrationPlay`, one program counter per worker (keyed by the
worker's container name), and the controlling thread's position. -/
structure EState where
  done : Finset String
  error : Option Nat
  pc : String → WPC
  ctrl : CPC

/-- Pointwise update of the worker program-counter map. -/
def upd (f : String → WPC) (k : String) (v : WPC) : String → WPC :=
  fun x => if x = k then v else f x

/-- The wait-loop predicate of the worker, evaluated against a total
dependency map (`_satisfied` after a successful dict lookup):
`len(self._dependencies[c.name].difference(self._done)) == 0`. -/
def satisfied (deps : String → Finset String) (done : Finset String)
    (c : String) : Bool :=
  (deps c \ done).card == 0

/-- True on the program counters of a worker whose thread has
returned, i.e. whose `t.isAlive()` is false. -/
def terminated : WPC → Bool
  | .finished => true
  | .failed => true
  | .aborted => true
  | _ => false

/-- Observable labels on transitions: which thread moved and what it
did. `notify` marks the `finally` block acquiring the condition
variable and calling `notifyAll`; `abortRet` marks the abort branch
returning (which performs no notification); `emitDiag` marks `end()`
writing the captured error to stderr. -/
inductive Label where
  | waitExit (c : String)
  | runBegin (c : String)
  | abortRet (c : String)
  | runOk (c : String)
  | runFail (c : String) (e : Nat)
  | notify (c : String)
  | joinPass (c : String)
  | omEnd
  | emitDiag
  | endQuiet
deriving DecidableEq

/-- One interleaved step of the play, for registered workers `cs` and
dependency map `deps`. Worker transitions follow the body `act` of
`register`:
```
while not self._satisfied(task.container) and not self._error:
    self._cv.wait(1)
self._cv.release()
if self._error:
    task.o.commit(red(...)); return            -- abortRet
try:
    task.run()                                  -- runBegin .. runOk/runFail
    self._done.add(task.container)
except Exception as e:
    self._error = e                             -- unconditional overwrite
finally:
    self._cv.acquire(); self._cv.notifyAll(); self._cv.release()
```
Controller transitions follow `end()`:
```
for t in self._threads:
    while not self._error and t.isAlive():      -- joinPass once this is false
        t.join(1)
self._om.end()                                  -- omEnd
if self._error:
    sys.stderr.write(...)                        -- emitDiag (else endQuiet)
```
The wait loop can only be exited when its condition is false, i.e.
when the container is satisfied or an error is recorded; the read of
`self._error` after releasing the lock is a separate step. `task.run`
succeeding and the following `done.add` form the `runOk` step; `run`
raising and the `except` assignment to `self._error` form the
`runFail` step, which overwrites the slot unconditionally. -/
inductive Step (cs : List String) (deps : String → Finset String) :
    EState → Label → EState → Prop where
  | waitExit (s : EState) (c : String) :
      c ∈ cs → s.pc c = .waiting →
      (satisfied deps s.done c = true ∨ s.error ≠ none) →
      Step cs deps s (.waitExit c) { s with pc := upd s.pc c .checkErr }
  | runBegin (s : EState) (c : String) :
      c ∈ cs → s.pc c = .checkErr → s.error = none →
      Step cs deps s (.runBegin c) { s with pc := upd s.pc c .running }
  | abortRet (s : EState) (c : String) :
      c ∈ cs → s.pc c = .checkErr → s.error ≠ none →
      Step cs deps s (.abortRet c) { s with pc := upd s.pc c .aborted }
  | runOk (s : EState) (c : String) :
      c ∈ cs → s.pc c = .running →
      Step cs deps s (.runOk c)
        { s with pc := upd s.pc c .notifyS, done := insert c s.done }
  | runFail (s : EState) (c : String) (e : Nat) :
      c ∈ cs → s.pc c = .running →
      Step cs deps s (.runFail c e)
        { s with pc := upd s.pc c .notifyF, error := some e }
  | notifyS (s : EState) (c : String) :
      c ∈ cs → s.pc c = .notifyS →
      Step cs deps s (.notify c) { s with pc := upd s.pc c .finished }
  | notifyF (s : EState) (c : String) :
      c ∈ cs → s.pc c = .notifyF →
      Step cs deps s (.notify c) { s with pc := upd s.pc c .failed }
  | joinPass (s : EState) (c : String) (rem : List String) :
      s.ctrl = .joining (c :: rem) →
      (s.error ≠ none ∨ terminated (s.pc c) = true) →
      Step cs deps s (.joinPass c) { s with ctrl := .joining rem }
  | omEnd (s : EState) :
      s.ctrl = .joining [] →
      Step cs deps s .omEnd { s with ctrl := .tearing }
  | emitDiag (s : EState) :
      s.ctrl = .tearing → s.error ≠ none →
      Step cs deps s .emitDiag { s with ctrl := .ended }
  | endQuiet (s : EState) :
      s.ctrl = .tearing → s.error = none →
      Step cs deps s .endQuiet { s with ctrl := .ended }

/-- State of a freshly started play: empty `done`, no error, every
worker in its wait loop, and the controlling thread about to join the
workers in registration order. -/
def initState (cs : List String) : EState :=
  { done := ∅, error := none, pc := fun _ => .waiting, ctrl := .joining cs }

/-- Reachability from the initial state by interleaved steps. -/
inductive Reach (cs : List String) (deps : String → Finset String) :
    EState → Prop where
  | init : Reach cs deps (initState cs)
  | step {s s' : EState} {l : Label} :
      Reach cs deps s → Step cs deps s l s' → Reach cs deps s'

/-- A finite execution from `s` to `s'` with the listed labels. -/
inductive TraceTo (cs : List String) (deps : String → Finset String) :
    EState → List Label → EState → Prop where
  | nil (s : EState) : TraceTo cs deps s [] s
  | cons {s s' s'' : EState} {l : Label} {ls : List Label} :
      Step cs deps s l s' → TraceTo cs deps s' ls s'' →
      TraceTo cs deps s (l :: ls) s''

/-! ### Part 3: the sequential `FullStatus.run` loop

`FullStatus.run` walks `self._containers` in order with a `for` loop;
the whole per-container inspection body sits in a `try` whose
`except Exception` commits a local "host down" line for that container
and falls through to the next iteration. Nothing in the loop touches
`self._error` or `self._done`. The inspection body (status query,
port pings, line formatting) is an external collaborator and is
abstracted as one call per container that either produces the lines
for that container or raises. -/

/-- Terminal line committed by the `except Exception` branch of
`FullStatus.run` for the failing container. -/
def hostDownLine : String := "host down down"

/-- Output record and shared-state view of the sequential status walk:
the committed lines in emission order (tagged by container name) and
the engine's `_error` slot, which `FullStatus.run` never writes. -/
structure FSState where
  output : List (String × String)
  error : Option Nat

/-- One iteration of the `FullStatus.run` loop over container `c`:
run the inspection body; on success commit its lines, on an exception
commit the local "host down" line; either way the shared error slot is
untouched and the loop continues. -/
def fullStatusStep (inspect : String → Except Nat String)
    (st : FSState) (c : Container) : FSState :=
  match inspect c.name with
  | .ok line => { st with output := st.output ++ [(c.name, line)] }
  | .error _ => { st with output := st.output ++ [(c.name, hostDownLine)] }

/-- `FullStatus.run`: fold the per-container iteration over the play's
containers in list order, starting from no output and the `_error`
slot as `__init__` left it (`None`). -/
def fullStatusRun (inspect : String → Except Nat String)
    (play : List Container) : FSState :=
  play.foldl (fullStatusStep inspect) { output := [], error := none }

/-- The line `fullStatusStep` commits for container `c`: its
inspection result on success, the local "host down" rendering on an
exception. -/
def statusLine (inspect : String → Except Nat String)
    (c : Container) : String :=
  match inspect c.name with
  | .ok line => line
  | .error _ => hostDownLine

/-! ### Helper lemmas about the transition system -/

/-- `upd` at the updated key. -/
theorem upd_same (f : String → WPC) (k : String) (v : WPC) :
    upd f k v k = v := by
  simp [upd]

/-- `upd` at any other key. -/
theorem upd_other (f : String → WPC) (k : String) (v : WPC) (x : String)
    (h : x ≠ k) : upd f k v x = f x := by
  simp [upd, h]

/-- The satisfied predicate is monotone in the `done` set: once a
container's dependencies are all done, adding more done containers
keeps them all done. -/
theorem satisfied_mono {deps : String → Finset String}
    {d1 d2 : Finset String} {c : String}
    (h : satisfied deps d1 c = true) (hsub : d1 ⊆ d2) :
    satisfied deps d2 c = true := by
  simp only [satisfied, beq_iff_eq, Finset.card_eq_zero,
    Finset.sdiff_eq_empty_iff_subset] at h ⊢
  exact h.trans hsub

/-- No step removes anything from the `done` set. -/
theorem step_done_mono {cs : List String} {deps : String → Finset String}
    {s s' : EState} {l : Label} (h : Step cs deps s l s') :
    s.done ⊆ s'.done := by
  cases h <;>
    first
      | exact Finset.Subset.refl _
      | exact Finset.subset_insert _ _

/-- No step clears the `error` slot once it holds a value. -/
theorem step_error_mono {cs : List String} {deps : String → Finset String}
    {s s' : EState} {l : Label} (h : Step cs deps s l s')
    (he : s.error ≠ none) : s'.error ≠ none := by
  cases h <;> first | exact he | exact Option.some_ne_none _

/-- Updating some worker's program counter cannot un-terminate another
worker (or the same worker when the new value is itself terminal). -/
theorem terminated_upd {f : String → WPC} {c0 c : String} {v : WPC}
    (ht : terminated (f c) = true)
    (hv : terminated (f c0) = false ∨ terminated v = true) :
    terminated (upd f c0 v c) = true := by
  unfold upd
  by_cases hc : c = c0
  · subst hc
    rcases hv with hv | hv
    · rw [ht] at hv; cases hv
    · simpa using hv
  · simpa [hc] using ht

/-- A worker whose thread has returned stays returned: no step moves a
program counter out of a terminal state. -/
theorem step_terminated_stable {cs : List String}
    {deps : String → Finset String} {s s' : EState} {l : Label}
    {c : String} (h : Step cs deps s l s')
    (ht : terminated (s.pc c) = true) : terminated (s'.pc c) = true := by
  cases h with
  | waitExit c0 hm hpc hg =>
      exact terminated_upd ht (Or.inl (by rw [hpc]; rfl))
  | runBegin c0 hm hpc he =>
      exact terminated_upd ht (Or.inl (by rw [hpc]; rfl))
  | abortRet c0 hm hpc he =>
      exact terminated_upd ht (Or.inr rfl)
  | runOk c0 hm hpc =>
      exact terminated_upd ht (Or.inl (by rw [hpc]; rfl))
  | runFail c0 e hm hpc =>
      exact terminated_upd ht (Or.inl (by rw [hpc]; rfl))
  | notifyS c0 hm hpc =>
      exact terminated_upd ht (Or.inr rfl)
  | notifyF c0 hm hpc =>
      exact terminated_upd ht (Or.inr rfl)
  | joinPass c0 rem hctrl hg => exact ht
  | omEnd hctrl => exact ht
  | emitDiag hctrl he => exact ht
  | endQuiet hctrl he => exact ht

/-- Invariant behind the ordering guarantee: whenever a worker sits
between the wait loop and the read of `self._error`, the loop-exit
condition — its container satisfied, or an error recorded — holds of
the current shared state. The loop exits only when the condition
holds, and both disjuncts are stable: `done` only grows and `error`
is never cleared. -/
theorem reach_checkErr_inv {cs : List String}
    {deps : String → Finset String} {s : EState}
    (hr : Reach cs deps s) :
    ∀ c, s.pc c = .checkErr →
      satisfied deps s.done c = true ∨ s.error ≠ none := by
  induction hr with
  | init =>
    intro c hc
    exact absurd hc (by simp [initState])
  | step hr hs ih =>
    intro c hc
    cases hs with
    | waitExit c0 hm hpc hg =>
      by_cases hcc : c = c0
      · subst hcc; exact hg
      · exact ih c (by simpa [upd, hcc] using hc)
    | runBegin c0 hm hpc he =>
      by_cases hcc : c = c0
      · subst hcc; simp [upd] at hc
      · exact ih c (by simpa [upd, hcc] using hc)
    | abortRet c0 hm hpc he =>
      by_cases hcc : c = c0
      · subst hcc; simp [upd] at hc
      · exact ih c (by simpa [upd, hcc] using hc)
    | runOk c0 hm hpc =>
      by_cases hcc : c = c0
      · subst hcc; simp [upd] at hc
      · rcases ih c (by simpa [upd, hcc] using hc) with hsat | he
        · exact Or.inl (satisfied_mono hsat (Finset.subset_insert _ _))
        · exact Or.inr he
    | runFail c0 e hm hpc =>
      exact Or.inr (Option.some_ne_none _)
    | notifyS c0 hm hpc =>
      by_cases hcc : c = c0
      · subst hcc; simp [upd] at hc
      · exact ih c (by simpa [upd, hcc] using hc)
    | notifyF c0 hm hpc =>
      by_cases hcc : c = c0
      · subst hcc; simp [upd] at hc
      · exact ih c (by simpa [upd, hcc] using hc)
    | joinPass c0 rem hctrl hg => exact ih c hc
    | omEnd hctrl => exact ih c hc
    | emitDiag hctrl he => exact ih c hc
    | endQuiet hctrl he => exact ih c hc

/-- The workers the join loop of `end()` has not yet reached (the
whole registration list before the loop starts, nothing once the loop
is over). -/
def ctrlRem : CPC → List String
  | .joining rem => rem
  | .tearing => []
  | .ended => []

/-- Invariant of `end()`'s join loop: as long as no error has been
recorded, every registered worker the loop has already passed has
actually returned. (The loop condition
`while not self._error and t.isAlive()` only lets a thread pass when
the error slot is set or the thread has finished.) -/
theorem reach_join_inv {cs : List String}
    {deps : String → Finset String} {s : EState}
    (hr : Reach cs deps s) :
    s.error = none → ∀ c ∈ cs, c ∉ ctrlRem s.ctrl →
      terminated (s.pc c) = true := by
  induction hr with
  | init =>
    intro _ c hcs hrem
    exact absurd hcs (by simpa [initState, ctrlRem] using hrem)
  | step hr hs ih =>
    intro he c hcs hrem
    cases hs with
    | waitExit c0 hm hpc hg =>
      refine terminated_upd (ih he c hcs hrem) (Or.inl (by rw [hpc]; rfl))
    | runBegin c0 hm hpc he0 =>
      refine terminated_upd (ih he c hcs hrem) (Or.inl (by rw [hpc]; rfl))
    | abortRet c0 hm hpc he0 =>
      refine terminated_upd (ih he c hcs hrem) (Or.inr rfl)
    | runOk c0 hm hpc =>
      refine terminated_upd (ih he c hcs hrem) (Or.inl (by rw [hpc]; rfl))
    | runFail c0 e hm hpc => cases he
    | notifyS c0 hm hpc =>
      refine terminated_upd (ih he c hcs hrem) (Or.inr rfl)
    | notifyF c0 hm hpc =>
      refine terminated_upd (ih he c hcs hrem) (Or.inr rfl)
    | joinPass c0 rem hctrl hg =>
      by_cases hcc : c = c0
      · subst hcc
        rcases hg with hg | hg
        · exact absurd he hg
        · exact hg
      · refine ih he c hcs ?_
        rw [hctrl]
        simp only [ctrlRem, List.mem_cons, not_or]
        exact ⟨hcc, by simpa [ctrlRem] using hrem⟩
    | omEnd hctrl =>
      refine ih he c hcs ?_
      rw [hctrl]
      simp [ctrlRem]
    | emitDiag hctrl he0 => exact absurd he he0
    | endQuiet hctrl he0 =>
      refine ih he c hcs ?_
      rw [hctrl]
      simp [ctrlRem]

/-- A worker can only reach the `finished` or `failed` state through
the step that performs the `finally`-block notification: if an
execution contains no notification by worker `c` and starts with `c`
not yet returned successfully or with a failure, it ends the same
way. -/
theorem trace_no_notify_not_done {cs : List String}
    {deps : String → Finset String} {s s' : EState} {ls : List Label}
    {c : String} (h : TraceTo cs deps s ls s')
    (hn : Label.notify c ∉ ls)
    (h0 : s.pc c ≠ .finished ∧ s.pc c ≠ .failed) :
    s'.pc c ≠ .finished ∧ s'.pc c ≠ .failed := by
  induction h with
  | nil s => exact h0
  | cons hs ht ih =>
    rw [List.mem_cons, not_or] at hn
    refine ih hn.2 ?_
    cases hs with
    | waitExit c0 hm hpc hg =>
      by_cases hcc : c = c0
      · subst hcc; constructor <;> simp [upd]
      · simpa [upd, hcc] using h0
    | runBegin c0 hm hpc he =>
      by_cases hcc : c = c0
      · subst hcc; constructor <;> simp [upd]
      · simpa [upd, hcc] using h0
    | abortRet c0 hm hpc he =>
      by_cases hcc : c = c0
      · subst hcc; constructor <;> simp [upd]
      · simpa [upd, hcc] using h0
    | runOk c0 hm hpc =>
      by_cases hcc : c = c0
      · subst hcc; constructor <;> simp [upd]
      · simpa [upd, hcc] using h0
    | runFail c0 e hm hpc =>
      by_cases hcc : c = c0
      · subst hcc; constructor <;> simp [upd]
      · simpa [upd, hcc] using h0
    | notifyS c0 hm hpc =>
      by_cases hcc : c = c0
      · exact absurd (by rw [hcc]) hn.1
      · simpa [upd, hcc] using h0
    | notifyF c0 hm hpc =>
      by_cases hcc : c = c0
      · exact absurd (by rw [hcc]) hn.1
      · simpa [upd, hcc] using h0
    | joinPass c0 rem hctrl hg => exact h0
    | omEnd hctrl => exact h0
    | emitDiag hctrl he => exact h0
    | endQuiet hctrl he => exact h0

/-- Unrolling the `FullStatus.run` fold from an arbitrary starting
state: the error slot is untouched and one record per container is
appended, in list order, each rendered from its own inspection
alone. -/
theorem fullStatus_foldl (inspect : String → Except Nat String)
    (play : List Container) (st : FSState) :
    (play.foldl (fullStatusStep inspect) st).error = st.error
    ∧ (play.foldl (fullStatusStep inspect) st).output
        = st.output ++ play.map (fun c => (c.name, statusLine inspect c)) := by
  induction play generalizing st with
  | nil => simp
  | cons c play ih =>
    simp only [List.foldl_cons, List.map_cons]
    refine ⟨?_, ?_⟩
    · rw [(ih (fullStatusStep inspect st c)).1]
      unfold fullStatusStep
      cases inspect c.name <;> rfl
    · rw [(ih (fullStatusStep inspect st c)).2]
      unfold fullStatusStep statusLine
      cases inspect c.name <;> simp

/-! ### Concrete plays used to exhibit behaviors

`noDeps` is the dependency map of a play whose containers have no
dependencies (every wait loop exits immediately); `oneCS` and `twoCS`
are plays with one and two registered workers. The `bwS` states drive
both workers of `twoCS` into their actions; the `w1S` states drive the
single worker of `oneCS` through a successful run and the join loop. -/

/-- Dependency map assigning no dependencies to any container. -/
def noDeps : String → Finset String := fun _ => ∅

/-- A play with a single registered worker. -/
def oneCS : List String := ["w"]

/-- A play with two registered workers. -/
def twoCS : List String := ["x", "y"]

/-- Worker x of the two-worker play has exited its wait loop. -/
def bwS1 : EState :=
  { initState twoCS with pc := upd (initState twoCS).pc "x" .checkErr }

/-- Worker x has passed the error check and started its action. -/
def bwS2 : EState := { bwS1 with pc := upd bwS1.pc "x" .running }

/-- Worker y has exited its wait loop as well. -/
def bwS3 : EState := { bwS2 with pc := upd bwS2.pc "y" .checkErr }

/-- Both workers are executing their actions. -/
def bwS4 : EState := { bwS3 with pc := upd bwS3.pc "y" .running }

/-- The single worker of `oneCS` has exited its wait loop. -/
def w1S1 : EState :=
  { initState oneCS with pc := upd (initState oneCS).pc "w" .checkErr }

/-- The single worker is executing its action. -/
def w1S2 : EState := { w1S1 with pc := upd w1S1.pc "w" .running }

/-- The single worker's action succeeded; its container is done. -/
def w1S3 : EState :=
  { w1S2 with pc := upd w1S2.pc "w" .notifyS, done := insert "w" w1S2.done }

/-- The single worker has notified and returned successfully. -/
def w1S4 : EState := { w1S3 with pc := upd w1S3.pc "w" .finished }

/-- The controlling thread has joined the finished worker. -/
def w1S5 : EState := { w1S4 with ctrl := .joining [] }

/-- The controlling thread is tearing down output rendering. -/
def w1S6 : EState := { w1S5 with ctrl := .tearing }

/-- Both workers running; worker x has failed with failure 1. -/
def c3S5 : EState :=
  { bwS4 with pc := upd bwS4.pc "x" .notifyF, error := some 1 }

/-- Worker y has failed as well, overwriting the slot with failure 2. -/
def c3S6 : EState :=
  { c3S5 with pc := upd c3S5.pc "y" .notifyF, error := some 2 }

/-- Worker y of the two-worker play has exited its wait loop. -/
def c4S1 : EState :=
  { initState twoCS with pc := upd (initState twoCS).pc "y" .checkErr }

/-- Worker y is executing its action. -/
def c4S2 : EState := { c4S1 with pc := upd c4S1.pc "y" .running }

/-- Worker y has failed with failure 7. -/
def c4S3 : EState :=
  { c4S2 with pc := upd c4S2.pc "y" .notifyF, error := some 7 }

/-- Worker x has exited its wait loop because of the error. -/
def c4S4 : EState := { c4S3 with pc := upd c4S3.pc "x" .checkErr }

/-- Worker x has taken the abort branch and returned. -/
def c4S5 : EState := { c4S4 with pc := upd c4S4.pc "x" .aborted }

/-- Both workers running; worker y has failed with failure 5. -/
def c5S5 : EState :=
  { bwS4 with pc := upd bwS4.pc "y" .notifyF, error := some 5 }

/-- The join loop has passed worker x (still running) on the error. -/
def c5S6 : EState := { c5S5 with ctrl := .joining ["y"] }

/-- The join loop has passed worker y as well. -/
def c5S7 : EState := { c5S6 with ctrl := .joining [] }

/-- The controlling thread is tearing down output rendering. -/
def c5S8 : EState := { c5S7 with ctrl := .tearing }

/-- The controlling thread has written the diagnostic and returned. -/
def c5S9 : EState := { c5S8 with ctrl := .ended }

/-! ### Claim theorems -/

/-- C1: the claim states that `_gather_dependencies` computes the full
transitive closure of a container's dependencies, and the function's
own docstring says the same ("Transitively gather all containers").
The code performs exactly one expansion step, so on the chain play —
service of B requires service of A, service of C requires service of
B, forward direction — container A is transitively reachable from C
(`ReachesDep`) yet absent from the computed set, which is just
`{"B"}`. -/
theorem gather_not_transitive_on_chain :
    ReachesDep chainWorld true chainPlay cC "A"
    ∧ "A" ∉ gather_dependencies chainWorld true chainPlay cC
    ∧ gather_dependencies chainWorld true chainPlay cC = {"B"} := by
  refine ⟨?_, by decide, by decide⟩
  refine ReachesDep.chain cC cB "A" (by decide) ?_ ?_
  · exact ReachesDep.direct cC "B" (by decide) (by decide)
  · exact ReachesDep.direct cB "A" (by decide) (by decide)

/-- C6: for every container `c`, the dependency set computed at play
construction never contains `c` itself and stays inside the play's
container names minus `c`, whatever the service graph reaches:
`gather_dependencies` intersects with the play's containers before
unioning and removes the container at the end, and with dependency
tracking disabled the set is empty. -/
theorem deps_exclude_self_within_play (w : World) (fw respect : Bool)
    (play : List Container) (c : Container) :
    c.name ∉ dependenciesOf w fw respect play c
    ∧ dependenciesOf w fw respect play c
        ⊆ (play.map Container.name).toFinset \ {c.name} := by
  unfold dependenciesOf
  by_cases hr : respect
  · rw [if_pos hr]
    simp only [gather_dependencies]
    refine ⟨Finset.not_mem_erase _ _, ?_⟩
    intro x hx
    rw [Finset.mem_erase] at hx
    obtain ⟨hne, hmem⟩ := hx
    rw [Finset.mem_sdiff]
    rcases Finset.mem_union.1 hmem with hs | hi
    · exact absurd (Finset.mem_singleton.1 hs) hne
    · exact ⟨(Finset.mem_inter.1 hi).2, Finset.not_mem_singleton.2 hne⟩
  · rw [if_neg hr]
    simp

/-- C8: constructing the play with dependency tracking disabled (as
the fast `Status` variant does) gives every in-play container the
empty dependency set, so its `_satisfied` check succeeds against any
`done` set and the worker's wait loop can never block on another
container. -/
theorem status_play_has_no_dependencies (w : World) (fw : Bool)
    (play : List Container) (done : Finset String) (c : Container)
    (h : c ∈ play) :
    dictFind (dependenciesDict w fw false play) c.name = some ∅
    ∧ satisfiedQ (dependenciesDict w fw false play) done c = some true := by
  have hfind : dictFind (dependenciesDict w fw false play) c.name
      = some ∅ := by
    unfold dictFind dependenciesDict
    refine dictFind_step_const _ none c.name ∅ ?_ ?_
    · intro kv hm
      rw [List.mem_map] at hm
      obtain ⟨c2, _, rfl⟩ := hm
      simp [dependenciesOf]
    · exact Or.inl ⟨(c.name, dependenciesOf w fw false play c),
        List.mem_map.2 ⟨c, h, rfl⟩, rfl⟩
  refine ⟨hfind, ?_⟩
  unfold satisfiedQ
  rw [hfind]
  simp

/-- Witness for C8: in the chain play with dependency tracking
disabled, container C gets the empty dependency set and is satisfied
against the empty `done` set. -/
theorem status_play_has_no_dependencies_witness :
    dictFind (dependenciesDict chainWorld true false chainPlay) "C"
      = some ∅
    ∧ satisfiedQ (dependenciesDict chainWorld true false chainPlay) ∅ cC
      = some true :=
  status_play_has_no_dependencies chainWorld true chainPlay ∅ cC
    (by decide)

/-- C10: `_satisfied` subscripts the `_dependencies` dict with the
task's container name, so for a container registered into the play the
check returns a boolean, while for a container absent from the play's
container list the lookup has no entry and raises `KeyError` (here
`none`): `register` is only safe for containers supplied at
construction. -/
theorem satisfied_needs_registered_container (w : World)
    (fw respect : Bool) (play : List Container) (done : Finset String)
    (c : Container) :
    (c.name ∉ play.map Container.name →
      satisfiedQ (dependenciesDict w fw respect play) done c = none)
    ∧ (c.name ∈ play.map Container.name →
      ∃ b, satisfiedQ (dependenciesDict w fw respect play) done c
        = some b) := by
  constructor
  · intro hno
    unfold satisfiedQ
    have hfind : dictFind (dependenciesDict w fw respect play) c.name
        = none := by
      unfold dictFind dependenciesDict
      apply dictFind_step_no_match
      intro kv hm
      rw [List.mem_map] at hm
      obtain ⟨c2, hc2, rfl⟩ := hm
      intro heq
      exact hno (heq ▸ List.mem_map.2 ⟨c2, hc2, rfl⟩)
    rw [hfind]
    rfl
  · intro hyes
    unfold satisfiedQ
    have hsome : (dictFind (dependenciesDict w fw respect play)
        c.name).isSome = true := by
      unfold dictFind dependenciesDict
      apply dictFind_step_isSome
      rw [List.mem_map] at hyes
      obtain ⟨c2, hc2, hname⟩ := hyes
      exact Or.inl ⟨(c2.name, dependenciesOf w fw respect play c2),
        List.mem_map.2 ⟨c2, hc2, rfl⟩, hname⟩
    obtain ⟨v, hv⟩ := Option.isSome_iff_exists.1 hsome
    rw [hv]
    exact ⟨_, rfl⟩

/-- Witness for C10: in the chain play, a container named Z that was
never supplied at construction makes the satisfied check a failing
lookup, while the registered container A gets a boolean. -/
theorem satisfied_needs_registered_container_witness :
    satisfiedQ (dependenciesDict chainWorld true true chainPlay) ∅
      { name := "Z", service := "SZ" } = none
    ∧ ∃ b, satisfiedQ (dependenciesDict chainWorld true true chainPlay) ∅
      cA = some b :=
  ⟨(satisfied_needs_registered_container chainWorld true true chainPlay ∅
      { name := "Z", service := "SZ" }).1 (by decide),
   (satisfied_needs_registered_container chainWorld true true chainPlay ∅
      cA).2 (by decide)⟩

/-- C9: `FullStatus.run` walks its containers strictly sequentially in
list order; each container contributes exactly one terminal record,
rendered from its own inspection alone — the local "host down" line
when the inspection raised — and the shared error slot is never
written. -/
theorem fullstatus_sequential_and_local_errors
    (inspect : String → Except Nat String) (play : List Container) :
    (fullStatusRun inspect play).error = none
    ∧ (fullStatusRun inspect play).output
        = play.map (fun c => (c.name, statusLine inspect c)) := by
  have h := fullStatus_foldl inspect play { output := [], error := none }
  exact ⟨h.1, by simpa using h.2⟩

/-- C2: in every reachable state, a worker's step that begins its
task's action (the transition from the error check into `task.run()`)
happens only when the container's dependencies are all in `done` and
the error slot is unset: the wait loop exits only when the container
is satisfied or an error is recorded, both conditions are stable, and
a recorded error diverts the worker into the abort branch instead. -/
theorem no_premature_start {cs : List String}
    {deps : String → Finset String} {s s' : EState} {c : String}
    (hr : Reach cs deps s) (hs : Step cs deps s (.runBegin c) s') :
    satisfied deps s.done c = true ∧ s.error = none := by
  cases hs with
  | runBegin c0 hm hpc he =>
    rcases reach_checkErr_inv hr c hpc with hsat | hne
    · exact ⟨hsat, he⟩
    · exact absurd he hne

/-- Witness for C2: the single dependency-free worker reaches the
start of its action from a reachable state, and there its (empty)
dependency set is satisfied with no error recorded. -/
theorem no_premature_start_witness :
    satisfied noDeps w1S1.done "w" = true ∧ w1S1.error = none := by
  have hr : Reach oneCS noDeps w1S1 :=
    Reach.step Reach.init
      (Step.waitExit (initState oneCS) "w" (by decide) rfl
        (Or.inl (by decide)))
  exact no_premature_start hr
    (Step.runBegin w1S1 "w" (by decide) (by decide) rfl)

/-- C3, counterexample: the claim says a failing worker records its
failure only if the error slot is still unset, so the slot keeps the
first failure. In the two-worker play both workers pass the error
check while it is unset and start their actions; worker x fails first
and the slot holds failure 1, then worker y's failure overwrites it
with failure 2 — the assignment `self._error = e` is unconditional. -/
theorem first_failure_overwritten :
    TraceTo twoCS noDeps (initState twoCS)
      [.waitExit "x", .runBegin "x", .waitExit "y", .runBegin "y",
        .runFail "x" 1] c3S5
    ∧ c3S5.error = some 1
    ∧ Step twoCS noDeps c3S5 (.runFail "y" 2) c3S6
    ∧ c3S6.error = some 2 := by
  refine ⟨?_, rfl, Step.runFail c3S5 "y" 2 (by decide) (by decide), rfl⟩
  exact TraceTo.cons
    (Step.waitExit (initState twoCS) "x" (by decide) rfl
      (Or.inl (by decide)))
    (TraceTo.cons (Step.runBegin bwS1 "x" (by decide) (by decide) rfl)
    (TraceTo.cons (Step.waitExit bwS2 "y" (by decide) (by decide)
      (Or.inl (by decide)))
    (TraceTo.cons (Step.runBegin bwS3 "y" (by decide) (by decide) rfl)
    (TraceTo.cons (Step.runFail bwS4 "x" 1 (by decide) (by decide))
    (TraceTo.nil c3S5)))))

/-- C3 as amended: on failure the worker assigns the exception to the
shared error slot unconditionally — whatever the slot held before,
after the failing step it holds that worker's failure, so concurrent
failures leave the last written one, not necessarily the first. -/
theorem run_failure_overwrites_error {cs : List String}
    {deps : String → Finset String} {s s' : EState} {c : String}
    {e : Nat} (h : Step cs deps s (.runFail c e) s') :
    s'.error = some e := by
  cases h
  rfl

/-- Witness for C3 as amended: worker y's failing step from the state
where the slot already holds failure 1 leaves failure 2 in the slot. -/
theorem run_failure_overwrites_error_witness :
    Step twoCS noDeps c3S5 (.runFail "y" 2) c3S6
    ∧ c3S6.error = some 2 := by
  have h : Step twoCS noDeps c3S5 (.runFail "y" 2) c3S6 :=
    Step.runFail c3S5 "y" 2 (by decide) (by decide)
  exact ⟨h, run_failure_overwrites_error h⟩

/-- C4, counterexample: the claim says every exit path of the worker
body notifies all waiters before returning. On the abort path the body
is `task.o.commit(red(...)); return`, with no `finally` around it: in
the exhibited execution worker y fails, worker x observes the error
and returns aborted, and no step of the whole trace is a notification
by x. -/
theorem abort_path_returns_without_notify :
    TraceTo twoCS noDeps (initState twoCS)
      [.waitExit "y", .runBegin "y", .runFail "y" 7, .waitExit "x",
        .abortRet "x"] c4S5
    ∧ c4S5.pc "x" = .aborted
    ∧ Label.notify "x" ∉
        [Label.waitExit "y", Label.runBegin "y", Label.runFail "y" 7,
          Label.waitExit "x", Label.abortRet "x"] := by
  refine ⟨?_, by decide, by decide⟩
  exact TraceTo.cons
    (Step.waitExit (initState twoCS) "y" (by decide) rfl
      (Or.inl (by decide)))
    (TraceTo.cons (Step.runBegin c4S1 "y" (by decide) (by decide) rfl)
    (TraceTo.cons (Step.runFail c4S2 "y" 7 (by decide) (by decide))
    (TraceTo.cons (Step.waitExit c4S3 "x" (by decide) (by decide)
      (Or.inr (by decide)))
    (TraceTo.cons (Step.abortRet c4S4 "x" (by decide) (by decide)
      (by decide))
    (TraceTo.nil c4S5)))))

/-- C4 as amended: on the success and failure paths the `finally`
block notifies all waiters before the worker returns — a worker can
only end up returned-successful or returned-failed if its notification
occurs in the execution — while the abort path returns without
notifying (see the counterexample). -/
theorem notify_precedes_success_or_failure_return {cs : List String}
    {deps : String → Finset String} {s : EState} {ls : List Label}
    {c : String} (h : TraceTo cs deps (initState cs) ls s)
    (hf : s.pc c = .finished ∨ s.pc c = .failed) :
    Label.notify c ∈ ls := by
  by_contra hn
  have h2 := trace_no_notify_not_done h hn
    (by constructor <;> simp [initState])
  rcases hf with hf | hf
  · exact h2.1 hf
  · exact h2.2 hf

/-- Witness for C4 as amended: the single worker's successful
execution ends returned-successful, and its notification indeed
appears among the labels. -/
theorem notify_precedes_return_witness :
    Label.notify "w" ∈
      [Label.waitExit "w", Label.runBegin "w", Label.runOk "w",
        Label.notify "w"] := by
  have ht : TraceTo oneCS noDeps (initState oneCS)
      [.waitExit "w", .runBegin "w", .runOk "w", .notify "w"] w1S4 :=
    TraceTo.cons
      (Step.waitExit (initState oneCS) "w" (by decide) rfl
        (Or.inl (by decide)))
      (TraceTo.cons (Step.runBegin w1S1 "w" (by decide) (by decide) rfl)
      (TraceTo.cons (Step.runOk w1S2 "w" (by decide) (by decide))
      (TraceTo.cons (Step.notifyS w1S3 "w" (by decide) (by decide))
      (TraceTo.nil w1S4))))
  exact notify_precedes_success_or_failure_return ht (Or.inl (by decide))

/-- C5, counterexample: the claim says `end()` waits for every worker
thread to finish before tearing down and emitting the diagnostic. The
join loop runs `while not self._error and t.isAlive(): t.join(1)`, so
once an error is recorded it passes every remaining thread without
joining: in the exhibited execution worker y fails while worker x is
still executing its action, `end()` passes both joins, tears down and
emits the diagnostic with worker x still running. -/
theorem diag_emitted_before_workers_finish :
    TraceTo twoCS noDeps (initState twoCS)
      [.waitExit "x", .runBegin "x", .waitExit "y", .runBegin "y",
        .runFail "y" 5, .joinPass "x", .joinPass "y", .omEnd,
        .emitDiag] c5S9
    ∧ c5S9.ctrl = .ended
    ∧ c5S9.error = some 5
    ∧ terminated (c5S9.pc "x") = false := by
  refine ⟨?_, rfl, rfl, by decide⟩
  exact TraceTo.cons
    (Step.waitExit (initState twoCS) "x" (by decide) rfl
      (Or.inl (by decide)))
    (TraceTo.cons (Step.runBegin bwS1 "x" (by decide) (by decide) rfl)
    (TraceTo.cons (Step.waitExit bwS2 "y" (by decide) (by decide)
      (Or.inl (by decide)))
    (TraceTo.cons (Step.runBegin bwS3 "y" (by decide) (by decide) rfl)
    (TraceTo.cons (Step.runFail bwS4 "y" 5 (by decide) (by decide))
    (TraceTo.cons (Step.joinPass c5S5 "x" ["y"] (by decide)
      (Or.inl (by decide)))
    (TraceTo.cons (Step.joinPass c5S6 "y" [] (by decide)
      (Or.inl (by decide)))
    (TraceTo.cons (Step.omEnd c5S7 (by decide))
    (TraceTo.cons (Step.emitDiag c5S8 (by decide) (by decide))
    (TraceTo.nil c5S9)))))))))

/-- C5 as amended: `end()` joins each worker only while the error slot
is unset, so when no error is ever recorded the controlling thread
reaches teardown (and the diagnostic position) only after every
registered worker has returned; once an error is recorded the
remaining joins are skipped and the diagnostic may be written while
workers still run (see the counterexample). -/
theorem end_waits_for_workers_when_no_error {cs : List String}
    {deps : String → Finset String} {s : EState}
    (hr : Reach cs deps s) (hc : s.ctrl = .tearing ∨ s.ctrl = .ended)
    (he : s.error = none) :
    ∀ c ∈ cs, terminated (s.pc c) = true := by
  intro c hcs
  refine reach_join_inv hr he c hcs ?_
  rcases hc with hc | hc <;> simp [hc, ctrlRem]

/-- Witness for C5 as amended: after the single worker's successful
run the controlling thread reaches teardown with no error, and the
worker is indeed terminated there. -/
theorem end_waits_for_workers_witness :
    w1S6.ctrl = CPC.tearing ∧ w1S6.error = none
    ∧ terminated (w1S6.pc "w") = true := by
  have hr : Reach oneCS noDeps w1S6 :=
    Reach.step (Reach.step (Reach.step (Reach.step (Reach.step
      (Reach.step Reach.init
        (Step.waitExit (initState oneCS) "w" (by decide) rfl
          (Or.inl (by decide))))
      (Step.runBegin w1S1 "w" (by decide) (by decide) rfl))
      (Step.runOk w1S2 "w" (by decide) (by decide)))
      (Step.notifyS w1S3 "w" (by decide) (by decide)))
      (Step.joinPass w1S4 "w" [] (by decide) (Or.inr (by decide))))
      (Step.omEnd w1S5 (by decide))
  exact ⟨rfl, rfl,
    end_waits_for_workers_when_no_error hr (Or.inl rfl) rfl "w"
      (by decide)⟩

/-- C7: every step of the play — worker or controlling thread —
preserves the two shared-state invariants: nothing is ever removed
from the `done` set, and the `error` slot, once holding a value, never
goes back to empty. -/
theorem done_monotone_error_sticky {cs : List String}
    {deps : String → Finset String} {s s' : EState} {l : Label}
    (h : Step cs deps s l s') :
    s.done ⊆ s'.done ∧ (s.error ≠ none → s'.error ≠ none) :=
  ⟨step_done_mono h, step_error_mono h⟩

/-- Witness for C7: across the join step taken after worker y's
failure, the `done` set is preserved and the recorded error stays
recorded. -/
theorem done_monotone_error_sticky_witness :
    Step twoCS noDeps c5S5 (.joinPass "x") c5S6
    ∧ c5S5.done ⊆ c5S6.done ∧ c5S6.error ≠ none := by
  have h : Step twoCS noDeps c5S5 (.joinPass "x") c5S6 :=
    Step.joinPass c5S5 "x" ["y"] (by decide) (Or.inl (by decide))
  exact ⟨h, (done_monotone_error_sticky h).1,
    (done_monotone_error_sticky h).2 (by decide)⟩

end Maestro
